import Mathlib

/-!
Shallow embedding of the `raybow-2` ray-tracer core in Lean 4, together with
theorems settling the specification claims against it.

Modelling conventions:
* `f32` values are modelled as real numbers (exact arithmetic).  The value
  `f32::INFINITY` that the renderer stores in `Interval` bounds is modelled by
  `(⊤ : EReal)`, so intervals carry `EReal` bounds while all geometry stays
  over `ℝ`.
* The claims that are specifically about IEEE special values (NaN and ±∞
  propagation: the unit-sphere sampler guard and colour clamping) are settled
  in a dedicated float model `FP` further below, which tracks the special
  values `nan`, `inf`, `ninf` exactly and computes exactly on finite values.
* The mutable `Xoshiro256Plus` generator (and the implicit `rand::random()`
  thread generator) are modelled as explicit streams of uniform draws that are
  threaded through every function that consumes randomness, exactly at the
  call sites where the Rust code draws.
-/

noncomputable section

open scoped Classical

namespace Raybow

/-- 3D vector with real components (models `glam::Vec3A` and
`math::vector3::Vector3`, whose arithmetic is componentwise and identical). -/
structure Vec3 where
  x : ℝ
  y : ℝ
  z : ℝ

namespace Vec3

def add (a b : Vec3) : Vec3 := ⟨a.x + b.x, a.y + b.y, a.z + b.z⟩

def sub (a b : Vec3) : Vec3 := ⟨a.x - b.x, a.y - b.y, a.z - b.z⟩

def neg (a : Vec3) : Vec3 := ⟨-a.x, -a.y, -a.z⟩

/-- Scalar multiplication `f32 * Vec3`. -/
def smul (k : ℝ) (a : Vec3) : Vec3 := ⟨k * a.x, k * a.y, k * a.z⟩

/-- Division by a scalar, `Vec3 / f32`. -/
def divs (a : Vec3) (k : ℝ) : Vec3 := ⟨a.x / k, a.y / k, a.z / k⟩

instance : Add Vec3 := ⟨add⟩

instance : Sub Vec3 := ⟨sub⟩

instance : Neg Vec3 := ⟨neg⟩

/-- Dot product (`Vector3::dot` / `Vec3A::dot`). -/
def dot (a b : Vec3) : ℝ := a.x * b.x + a.y * b.y + a.z * b.z

/-- Cross product (`Vector3::cross` / `Vec3A::cross`). -/
def cross (a b : Vec3) : Vec3 :=
  ⟨a.y * b.z - a.z * b.y, a.z * b.x - a.x * b.z, a.x * b.y - a.y * b.x⟩

/-- Magnitude (`Vector3::length`). -/
def length (a : Vec3) : ℝ := Real.sqrt (a.x * a.x + a.y * a.y + a.z * a.z)

/-- Componentwise division by the length (`Vector3::normalize` /
`Vec3A::normalize`). -/
def normalize (a : Vec3) : Vec3 := ⟨a.x / a.length, a.y / a.length, a.z / a.length⟩

@[simp] theorem add_def (a b : Vec3) :
    a + b = ⟨a.x + b.x, a.y + b.y, a.z + b.z⟩ := rfl

@[simp] theorem sub_def (a b : Vec3) :
    a - b = ⟨a.x - b.x, a.y - b.y, a.z - b.z⟩ := rfl

@[simp] theorem neg_def (a : Vec3) : -a = ⟨-a.x, -a.y, -a.z⟩ := rfl

end Vec3

/-- `math::reflect_vec3` (and the identical `Vector3::reflect`):
`v - 2 (v·n) n`. -/
def reflect_vec3 (vector normal : Vec3) : Vec3 :=
  vector - Vec3.smul (2 * vector.dot normal) normal

/-- `math::refract_vec3` (and the identical `Vector3::refract`): Snell's law
with ratio of refractive indices `k`. -/
def refract_vec3 (vector normal : Vec3) (k : ℝ) : Vec3 :=
  let cos_theta := min ((-vector).dot normal) 1
  let refracted_perpendicular := Vec3.smul k (vector + Vec3.smul cos_theta normal)
  let refracted_parallel :=
    Vec3.smul (-Real.sqrt |1 - refracted_perpendicular.dot refracted_perpendicular|) normal
  refracted_perpendicular + refracted_parallel

/-- `math::is_vec3_near_zero`: all components are compared *signedly* against
the threshold `1e-8` (no absolute value is taken in the source). -/
def is_vec3_near_zero (vector : Vec3) : Prop :=
  vector.x < 1e-8 ∧ vector.y < 1e-8 ∧ vector.z < 1e-8

/-- `Vector3::near_zero`, textually the same signed comparison as
`is_vec3_near_zero`. -/
def Vec3.near_zero (v : Vec3) : Prop :=
  v.x < 1e-8 ∧ v.y < 1e-8 ∧ v.z < 1e-8

/-- C10: the near-zero test compares signed components (no absolute values):
it holds exactly when every component is `< 1e-8`, and in particular the
vector `(-1, -1, -1)` is classified as near zero.  Both `is_vec3_near_zero`
and `Vector3::near_zero` behave this way. -/
theorem near_zero_signed_spec :
    (∀ v : Vec3, is_vec3_near_zero v ↔ (v.x < 1e-8 ∧ v.y < 1e-8 ∧ v.z < 1e-8))
    ∧ (∀ v : Vec3, v.near_zero ↔ (v.x < 1e-8 ∧ v.y < 1e-8 ∧ v.z < 1e-8))
    ∧ is_vec3_near_zero ⟨-1, -1, -1⟩ := by
  refine ⟨fun v => Iff.rfl, fun v => Iff.rfl, ?_, ?_, ?_⟩ <;> norm_num

/-- Linear RGB colour with real components (`color::RGBColor`). -/
structure RGBColor where
  r : ℝ
  g : ℝ
  b : ℝ

namespace RGBColor

def new (r g b : ℝ) : RGBColor := ⟨r, g, b⟩

/-- `RGBColor::black`. -/
def black : RGBColor := ⟨0, 0, 0⟩

/-- `RGBColor::white`. -/
def white : RGBColor := ⟨1, 1, 1⟩

/-- Componentwise addition. -/
def add (a c : RGBColor) : RGBColor := ⟨a.r + c.r, a.g + c.g, a.b + c.b⟩

/-- Elementwise product (`Mul<RGBColor> for RGBColor`). -/
def mul (a c : RGBColor) : RGBColor := ⟨a.r * c.r, a.g * c.g, a.b * c.b⟩

/-- Scalar product `f32 * RGBColor`. -/
def smul (k : ℝ) (c : RGBColor) : RGBColor := ⟨k * c.r, k * c.g, k * c.b⟩

/-- `RGBColor / f32`. -/
def divs (c : RGBColor) (k : ℝ) : RGBColor := ⟨c.r / k, c.g / k, c.b / k⟩

instance : Add RGBColor := ⟨add⟩

instance : Mul RGBColor := ⟨mul⟩

/-- `RGBColor::lerp`. -/
def lerp (start_color end_color : RGBColor) (a : ℝ) : RGBColor :=
  smul (1 - a) start_color + smul a end_color

@[simp] theorem mul_col (a c : RGBColor) :
    a * c = ⟨a.r * c.r, a.g * c.g, a.b * c.b⟩ := rfl

@[simp] theorem add_col (a c : RGBColor) :
    a + c = ⟨a.r + c.r, a.g + c.g, a.b + c.b⟩ := rfl

end RGBColor

/-- `ray::Ray`: immutable origin and direction. -/
structure Ray where
  origin : Vec3
  direction : Vec3

/-- `Ray::at`: position along the ray. -/
def Ray.at (r : Ray) (t : ℝ) : Vec3 := r.origin + Vec3.smul t r.direction

/-- `interval::Interval`.  The bounds are `EReal` so that the f32 value
`f32::INFINITY` used by the integrator can be stored as `⊤`. -/
structure Interval where
  min : EReal
  max : EReal

namespace Interval

/-- `Interval::new`. -/
def new (min max : EReal) : Interval := ⟨min, max⟩

/-- `Interval::contains`: membership including both bounds. -/
def contains (I : Interval) (x : ℝ) : Prop :=
  I.min ≤ (x : EReal) ∧ (x : EReal) ≤ I.max

/-- `Interval::surrounds`: membership excluding both bounds. -/
def surrounds (I : Interval) (x : ℝ) : Prop :=
  I.min < (x : EReal) ∧ (x : EReal) < I.max

end Interval

/-- Explicit model of the `Xoshiro256Plus` generator state (and likewise of
the implicit thread-local generator behind `rand::random()`): the stream of
uniform `f32` draws it will produce, each modelled as a real number. -/
structure Rng where
  stream : ℕ → ℝ

/-- One `rng.gen::<f32>()` draw: the head of the stream, plus the advanced
generator. -/
def Rng.next (g : Rng) : ℝ × Rng := (g.stream 0, ⟨fun n => g.stream (n + 1)⟩)

/-- `math::random_normal_number`: Box-Muller transform from two uniform
draws. -/
def random_normal_number (g : Rng) : ℝ × Rng :=
  let p1 := g.next
  let p2 := p1.2.next
  let sqrt_part := Real.sqrt (-2 * Real.log p1.1)
  let cos_part := Real.sin (2 * Real.pi * p2.1)
  (sqrt_part * cos_part, p2.2)

/-- `math::random_vec3_on_unit_sphere`: dropped-coordinate method on a 4D
normal sample.  In this exact real-number model the source's
`norm.is_infinite()` guard can never fire (reals are never infinite); the
guard's behaviour on IEEE special values is analysed separately in the `FP`
float model below. -/
def random_vec3_on_unit_sphere (g : Rng) : Vec3 × Rng :=
  let px := random_normal_number g
  let py := random_normal_number px.2
  let pz := random_normal_number py.2
  let pw := random_normal_number pz.2
  let x := px.1
  let y := py.1
  let z := pz.1
  let w := pw.1
  let norm := Real.sqrt (x * x + y * y + z * z + w * w)
  (⟨x / norm, y / norm, z / norm⟩, pw.2)

/-- `materials::metal::Metal`. -/
structure Metal where
  albedo : RGBColor
  roughness : ℝ

/-- `materials::lambertarian::LambertarianDiffuse`. -/
structure LambertarianDiffuse where
  albedo : RGBColor

/-- `materials::dielectric::Dielectric`. -/
structure Dielectric where
  index_of_refraction : ℝ

/-- `materials::AnyMaterial`: the closed sum of material kinds. -/
inductive AnyMaterial
  | metal : Metal → AnyMaterial
  | lambertarian : LambertarianDiffuse → AnyMaterial
  | dielectric : Dielectric → AnyMaterial

/-- `objects::HitRecord`.  The `Arc<AnyMaterial>` shared handle is modelled
by the material value itself (materials are immutable). -/
structure HitRecord where
  point : Vec3
  normal : Vec3
  t : ℝ
  front_face : Prop
  material : AnyMaterial

/-- `HitRecord::set_face_normal`: store the outward normal if the ray comes
from the front (negative dot with the ray direction), else its negation. -/
def HitRecord.set_face_normal (rec : HitRecord) (ray : Ray) (outward_normal : Vec3) :
    HitRecord :=
  let ff := ray.direction.dot outward_normal < 0
  { rec with
    front_face := ff
    normal := if ff then outward_normal else -outward_normal }

/-- `materials::MaterialScatterOutput`. -/
structure MaterialScatterOutput where
  scattered_ray : Ray
  attenuation : RGBColor

/-- `Dielectric::reflectance`: Schlick's approximation. -/
def Dielectric.reflectance (cosine k : ℝ) : ℝ :=
  let r0 := (1 - k) / (1 + k)
  let r0_2 := r0 * r0
  r0_2 + (1 - r0_2) * (1 - cosine) ^ 5

/-- `LambertarianDiffuse::scatter`.  The `is_invalid_vec3` branch in the
source only emits a debug log and does not change the result; the
commented-out near-zero guard is absent, as in the source. -/
def LambertarianDiffuse.scatter (m : LambertarianDiffuse) (_incoming_ray : Ray)
    (hit_record : HitRecord) (rng glob : Rng) :
    Option MaterialScatterOutput × Rng × Rng :=
  let pr := random_vec3_on_unit_sphere rng
  let scatter_direction := hit_record.normal + pr.1
  let scattered_ray : Ray := ⟨hit_record.point, scatter_direction⟩
  (some ⟨scattered_ray, m.albedo⟩, pr.2, glob)

/-- `Metal::scatter`. -/
def Metal.scatter (m : Metal) (incoming_ray : Ray) (hit_record : HitRecord)
    (rng glob : Rng) : Option MaterialScatterOutput × Rng × Rng :=
  let pr := random_vec3_on_unit_sphere rng
  let reflected := reflect_vec3 incoming_ray.direction.normalize hit_record.normal
      + Vec3.smul m.roughness pr.1
  let scattered_ray : Ray := ⟨hit_record.point, reflected⟩
  if scattered_ray.direction.dot hit_record.normal > 0 then
    (some ⟨scattered_ray, m.albedo⟩, pr.2, glob)
  else
    (none, pr.2, glob)

/-- `Dielectric::scatter`.  Two faithful details: first, in the source
`-unit_direction.dot(&normal).min(1.0)` parses as `-(min(dot, 1))` because
method calls bind tighter than unary minus; second, the reflect-or-refract
coin flip calls `rand::random()`, i.e. the implicit thread-local generator
(modelled by the separate `glob` stream), not the `_rng` parameter, which is
returned untouched. -/
def Dielectric.scatter (m : Dielectric) (incoming_ray : Ray) (hit_record : HitRecord)
    (rng glob : Rng) : Option MaterialScatterOutput × Rng × Rng :=
  let attenuation := RGBColor.new 1 1 1
  let refraction_ratio :=
    if hit_record.front_face then 1 / m.index_of_refraction else m.index_of_refraction
  let unit_direction := incoming_ray.direction.normalize
  let cos_theta := -(min (unit_direction.dot hit_record.normal) 1)
  let sin_theta := Real.sqrt (1 - cos_theta * cos_theta)
  let cannot_refract := refraction_ratio * sin_theta > 1
  let pu := glob.next
  let randomly_reflects := Dielectric.reflectance cos_theta refraction_ratio > pu.1
  let direction :=
    if cannot_refract ∨ randomly_reflects then
      reflect_vec3 unit_direction hit_record.normal
    else
      refract_vec3 unit_direction hit_record.normal refraction_ratio
  (some ⟨⟨hit_record.point, direction⟩, attenuation⟩, rng, pu.2)

/-- `AnyMaterial::scatter`: dispatch over the material kinds. -/
def AnyMaterial.scatter (m : AnyMaterial) (incoming_ray : Ray) (hit_record : HitRecord)
    (rng glob : Rng) : Option MaterialScatterOutput × Rng × Rng :=
  match m with
  | .metal inner => inner.scatter incoming_ray hit_record rng glob
  | .lambertarian inner => inner.scatter incoming_ray hit_record rng glob
  | .dielectric inner => inner.scatter incoming_ray hit_record rng glob

/-- `objects::sphere::Sphere`. -/
structure Sphere where
  center : Vec3
  radius : ℝ
  material : AnyMaterial

/-- `Sphere::get_outward_normal`: `(point_on_sphere - center) / radius`. -/
def Sphere.get_outward_normal (s : Sphere) (point_on_sphere : Vec3) : Vec3 :=
  (point_on_sphere - s.center).divs s.radius

/-- The tail of `Sphere::hit` once an accepted root is known: build the hit
record (initially with `front_face = false`, as `HitRecord::new` is called)
and apply `set_face_normal`. -/
def Sphere.record_at (s : Sphere) (ray : Ray) (root : ℝ) : HitRecord :=
  let point := ray.at root
  let outward_normal := s.get_outward_normal point
  let rec0 : HitRecord := ⟨point, outward_normal, root, False, s.material⟩
  rec0.set_face_normal ray outward_normal

/-- `Sphere::hit`: solve the quadratic, try the smaller root first, then the
larger, accepting only roots the interval strictly `surrounds`. -/
def Sphere.hit (s : Sphere) (ray : Ray) (ray_interval : Interval) : Option HitRecord :=
  let distance := ray.origin - s.center
  let a := ray.direction.dot ray.direction
  let half_b := distance.dot ray.direction
  let c := distance.dot distance - s.radius * s.radius
  let discriminant := half_b * half_b - a * c
  if discriminant < 0 then none
  else
    let sqrt_discriminant := Real.sqrt discriminant
    let root1 := (-half_b - sqrt_discriminant) / a
    if ray_interval.surrounds root1 then some (s.record_at ray root1)
    else
      let root2 := (-half_b + sqrt_discriminant) / a
      if ray_interval.surrounds root2 then some (s.record_at ray root2)
      else none

/-- `objects::parallelogram::Paralellogram` (source spelling), with the
fields precomputed by its constructor. -/
structure Paralellogram where
  bottom_left_point : Vec3
  up : Vec3
  right : Vec3
  normal : Vec3
  plane_parameter : ℝ
  w : Vec3
  material : AnyMaterial

/-- `Paralellogram::new`: precompute plane normal, plane offset and the
pseudo-inverse vector `w = n / (n·n)`. -/
def Paralellogram.new (bottom_left_point up right : Vec3) (material : AnyMaterial) :
    Paralellogram :=
  let n := right.cross up
  let normal := n.normalize
  let plane_parameter := normal.dot bottom_left_point
  let w := n.divs (n.dot n)
  ⟨bottom_left_point, up, right, normal, plane_parameter, w, material⟩

/-- `f32::EPSILON` = 2^-23. -/
def f32_EPSILON : ℝ := 1 / 8388608

/-- `Paralellogram::hit`: plane intersection with a near-parallel rejection,
an interval test on `t` using the *closed* `contains`, and an affine
coordinate test on `[0,1] × [0,1]`.  The record is built with
`front_face = true` and then `set_face_normal` is applied. -/
def Paralellogram.hit (p : Paralellogram) (ray : Ray) (ray_interval : Interval) :
    Option HitRecord :=
  let denominator := p.normal.dot ray.direction
  if |denominator| < f32_EPSILON then none
  else
    let numerator := p.plane_parameter - p.normal.dot ray.origin
    let t := numerator / denominator
    if ¬ ray_interval.contains t then none
    else
      let intersection := ray.at t
      let q := intersection - p.bottom_left_point
      let a := p.w.dot (q.cross p.up)
      let b := p.w.dot (p.right.cross q)
      let unit_interval := Interval.new ((0 : ℝ) : EReal) ((1 : ℝ) : EReal)
      if ¬ unit_interval.contains a ∨ ¬ unit_interval.contains b then none
      else
        let rec0 : HitRecord := ⟨intersection, p.normal, t, True, p.material⟩
        some (rec0.set_face_normal ray p.normal)

/-- `objects::AnyHittable`: the closed sum of primitive kinds. -/
inductive AnyHittable
  | sphere : Sphere → AnyHittable
  | paralellogram : Paralellogram → AnyHittable

/-- `AnyHittable::hit`: dispatch over the primitive kinds. -/
def AnyHittable.hit : AnyHittable → Ray → Interval → Option HitRecord
  | .sphere inner, ray, ray_interval => inner.hit ray ray_interval
  | .paralellogram inner, ray, ray_interval => inner.hit ray ray_interval

/-- `rendering::renderables::Renderables`: the scene aggregate.  The
`Vec<Arc<AnyHittable>>` is modelled as a list. -/
structure Renderables where
  hittable_renderables : List AnyHittable

/-- The loop body of `Renderables::hit`, with the loop state (current best
record and `closest_so_far`) made explicit.  A new hit replaces the best one
exactly when there is none yet or the new `t` is strictly smaller. -/
def Renderables.hitLoop (ray : Ray) (ray_interval : Interval) :
    List AnyHittable → Option HitRecord → EReal → Option HitRecord
  | [], hit_record, _ => hit_record
  | hittable :: rest, hit_record, closest_so_far =>
    let new_interval := Interval.new ray_interval.min closest_so_far
    match hittable.hit ray new_interval with
    | some current =>
      match hit_record with
      | none => Renderables.hitLoop ray ray_interval rest (some current) (current.t : EReal)
      | some best =>
        if current.t < best.t then
          Renderables.hitLoop ray ray_interval rest (some current) (current.t : EReal)
        else
          Renderables.hitLoop ray ray_interval rest (some best) closest_so_far
    | none => Renderables.hitLoop ray ray_interval rest hit_record closest_so_far

/-- `Renderables::hit` (the `Hittable` impl): iterate all primitives keeping
the closest hit, shrinking the upper search bound to the closest `t` found so
far. -/
def Renderables.hit (rs : Renderables) (ray : Ray) (ray_interval : Interval) :
    Option HitRecord :=
  Renderables.hitLoop ray ray_interval rs.hittable_renderables none ray_interval.max

/-- `preparation::SceneData`, restricted to the fields the integrator reads
(the camera is only used by the pixel loop, not by `ray_color`). -/
structure SceneData where
  renderables : Renderables
  background : Ray → RGBColor

/-- `rendering::render::ray_color`: the recursive colour estimator.  The
mutation of the generators is modelled by returning their advanced states
alongside the colour. -/
def ray_color (scene_data : SceneData) : Ray → ℕ → Rng → Rng → RGBColor × Rng × Rng
  | _ray, 0, rng, glob => (RGBColor.new 0 0 0, rng, glob)
  | ray, depth + 1, rng, glob =>
    let ray_interval := Interval.new ((0.001 : ℝ) : EReal) ⊤
    match scene_data.renderables.hit ray ray_interval with
    | some hit_record =>
      match hit_record.material.scatter ray hit_record rng glob with
      | (some material_result, rng1, glob1) =>
        let deeper := ray_color scene_data material_result.scattered_ray depth rng1 glob1
        (material_result.attenuation * deeper.1, deeper.2.1, deeper.2.2)
      | (none, rng1, glob1) => (RGBColor.new 0 0 0, rng1, glob1)
    | none => (scene_data.background ray, rng, glob)

@[simp] theorem HitRecord.t_set_face_normal (rec : HitRecord) (ray : Ray) (n : Vec3) :
    (rec.set_face_normal ray n).t = rec.t := rfl

@[simp] theorem HitRecord.point_set_face_normal (rec : HitRecord) (ray : Ray) (n : Vec3) :
    (rec.set_face_normal ray n).point = rec.point := rfl

@[simp] theorem HitRecord.material_set_face_normal (rec : HitRecord) (ray : Ray) (n : Vec3) :
    (rec.set_face_normal ray n).material = rec.material := rfl

@[simp] theorem Sphere.t_record_at (s : Sphere) (ray : Ray) (root : ℝ) :
    (s.record_at ray root).t = root := rfl

@[simp] theorem Vec3.smul_zero_left (v : Vec3) : Vec3.smul 0 v = ⟨0, 0, 0⟩ := by
  simp [Vec3.smul]

/-- Any record returned by `Sphere::hit` has its parameter strictly inside
the query interval: both accepted roots pass `surrounds`. -/
theorem sphere_hit_surrounds {s : Sphere} {ray : Ray} {I : Interval} {rec : HitRecord}
    (hh : s.hit ray I = some rec) : I.surrounds rec.t := by
  unfold Sphere.hit at hh
  dsimp only at hh
  split_ifs at hh with h1 h2 h3
  · exact (Option.some_injective _ hh) ▸ h2
  · exact (Option.some_injective _ hh) ▸ h3

/-- Any record returned by `Paralellogram::hit` has its parameter inside the
*closed* query interval (the source checks `contains`, not `surrounds`). -/
theorem para_hit_contains {p : Paralellogram} {ray : Ray} {I : Interval} {rec : HitRecord}
    (hh : p.hit ray I = some rec) : I.contains rec.t := by
  unfold Paralellogram.hit at hh
  dsimp only at hh
  split_ifs at hh with h1 h2 h3
  · push_neg at h2
    exact (Option.some_injective _ hh) ▸ h2

/-- A shared concrete material for test scenes. -/
def matW : AnyMaterial := .lambertarian ⟨RGBColor.new 1 0 0⟩

/-- A concrete sphere of radius 1 centred at `(0,0,-3)`. -/
def sphereW : Sphere := ⟨⟨0, 0, -3⟩, 1, matW⟩

/-- A concrete ray from the origin straight down the negative z axis. -/
def rayW : Ray := ⟨⟨0, 0, 0⟩, ⟨0, 0, -1⟩⟩

/-- The integrator's search interval `(0.001, +∞)`. -/
def intervalW : Interval := Interval.new ((0.001 : ℝ) : EReal) ⊤

/-- The record `sphereW.hit rayW intervalW` produces: front hit at `t = 2`. -/
def recW : HitRecord := ⟨⟨0, 0, -2⟩, ⟨0, 0, 1⟩, 2, True, matW⟩

theorem sphereW_hit : sphereW.hit rayW intervalW = some recW := by
  unfold Sphere.hit sphereW rayW intervalW
  dsimp only
  norm_num [Vec3.dot, Vec3.sub, Vec3.divs, Interval.surrounds, Interval.new,
    Sphere.record_at, Sphere.get_outward_normal, HitRecord.set_face_normal,
    Ray.at, Vec3.smul, Vec3.add, recW, matW, HitRecord.mk.injEq, eq_iff_iff]

/-- A concrete unit parallelogram in the `z = 0` plane with corner at the
origin, built through `Paralellogram::new`. -/
def paraW : Paralellogram := Paralellogram.new ⟨0, 0, 0⟩ ⟨0, 1, 0⟩ ⟨1, 0, 0⟩ matW

/-- A concrete ray aimed at the centre of `paraW` from distance 1. -/
def rayPW : Ray := ⟨⟨1/2, 1/2, 1⟩, ⟨0, 0, -1⟩⟩

/-- A query interval whose upper bound is exactly the `t` of the hit. -/
def intervalPW : Interval := Interval.new ((0.001 : ℝ) : EReal) ((1 : ℝ) : EReal)

/-- The record `paraW.hit rayPW intervalPW` produces: hit at `t = 1`, the
interval's upper bound. -/
def recPW : HitRecord := ⟨⟨1/2, 1/2, 0⟩, ⟨0, 0, 1⟩, 1, True, matW⟩

theorem paraW_hit : paraW.hit rayPW intervalPW = some recPW := by
  unfold Paralellogram.hit paraW Paralellogram.new rayPW intervalPW
  dsimp only
  norm_num [Vec3.dot, Vec3.sub, Vec3.divs, Vec3.cross, Vec3.normalize, Vec3.length,
    Interval.contains, Interval.new, f32_EPSILON, HitRecord.set_face_normal,
    Ray.at, Vec3.smul, Vec3.add, recPW, matW, HitRecord.mk.injEq, eq_iff_iff]
  exact ⟨EReal.coe_le_coe_iff.mpr (by norm_num),
    fun h => absurd (EReal.coe_lt_coe_iff.mp h) (by norm_num)⟩

/-- C2 (amended): `Sphere::hit` reports a hit only with parameter strictly
inside the open interval (`surrounds`), but `Paralellogram::hit` checks the
*closed* `contains`, so its reported parameter may equal a boundary; for
every primitive only `min ≤ t ≤ max` is guaranteed. -/
theorem hit_parameter_interval_spec :
    (∀ (s : Sphere) (ray : Ray) (I : Interval) (rec : HitRecord),
        s.hit ray I = some rec → I.surrounds rec.t)
    ∧ (∀ (p : Paralellogram) (ray : Ray) (I : Interval) (rec : HitRecord),
        p.hit ray I = some rec → I.contains rec.t) :=
  ⟨fun _ _ _ _ hh => sphere_hit_surrounds hh,
   fun _ _ _ _ hh => para_hit_contains hh⟩

/-- C2 counterexample: `paraW.hit` on the interval `(0.001, 1)` reports a hit
with `t = 1`, exactly the interval's upper bound, which `surrounds` rejects —
so hits are not always strictly inside the open interval. -/
theorem hit_parameter_interval_counterexample :
    paraW.hit rayPW intervalPW = some recPW
    ∧ recPW.t = 1
    ∧ intervalPW.max = ((1 : ℝ) : EReal)
    ∧ ¬ intervalPW.surrounds recPW.t := by
  refine ⟨paraW_hit, rfl, rfl, ?_⟩
  intro hsur
  exact absurd hsur.2 (by norm_num [recPW, intervalPW, Interval.new])

/-- C2 witness: the amended theorem applied to the concrete sphere and
parallelogram hits. -/
theorem hit_parameter_interval_spec_witness :
    intervalW.surrounds recW.t ∧ intervalPW.contains recPW.t :=
  ⟨hit_parameter_interval_spec.1 sphereW rayW intervalW recW sphereW_hit,
   hit_parameter_interval_spec.2 paraW rayPW intervalPW recPW paraW_hit⟩

theorem Vec3.dot_comm (a b : Vec3) : a.dot b = b.dot a := by
  simp only [Vec3.dot]; ring

theorem Vec3.neg_dot (a b : Vec3) : (Neg.neg a).dot b = -(a.dot b) := by
  simp only [Vec3.dot, Vec3.neg_def]; ring

/-- After `set_face_normal`, the stored normal never has positive dot product
with the ray direction: it is the outward normal if that dot is negative, and
the negated outward normal otherwise. -/
theorem set_face_normal_dot_nonpos (rec : HitRecord) (ray : Ray) (outward : Vec3) :
    ((rec.set_face_normal ray outward).normal).dot ray.direction ≤ 0 := by
  unfold HitRecord.set_face_normal
  dsimp only
  split_ifs with h
  · rw [Vec3.dot_comm]; exact le_of_lt h
  · rw [Vec3.neg_dot, Vec3.dot_comm]
    push_neg at h
    linarith

/-- Every record `Sphere::hit` returns went through `set_face_normal`, so its
normal opposes (at least weakly) the ray direction. -/
theorem sphere_hit_normal_nonpos {s : Sphere} {ray : Ray} {I : Interval} {rec : HitRecord}
    (hh : s.hit ray I = some rec) : rec.normal.dot ray.direction ≤ 0 := by
  unfold Sphere.hit at hh
  dsimp only at hh
  split_ifs at hh with h1 h2 h3
  · cases Option.some_injective _ hh
    exact set_face_normal_dot_nonpos _ _ _
  · cases Option.some_injective _ hh
    exact set_face_normal_dot_nonpos _ _ _

/-- Every record `Paralellogram::hit` returns went through
`set_face_normal`. -/
theorem para_hit_normal_nonpos {p : Paralellogram} {ray : Ray} {I : Interval} {rec : HitRecord}
    (hh : p.hit ray I = some rec) : rec.normal.dot ray.direction ≤ 0 := by
  unfold Paralellogram.hit at hh
  dsimp only at hh
  split_ifs at hh with h1 h2 h3
  · cases Option.some_injective _ hh
    exact set_face_normal_dot_nonpos _ _ _

theorem any_hit_normal_nonpos {h : AnyHittable} {ray : Ray} {I : Interval} {rec : HitRecord}
    (hh : h.hit ray I = some rec) : rec.normal.dot ray.direction ≤ 0 := by
  cases h with
  | sphere s => exact sphere_hit_normal_nonpos hh
  | paralellogram p => exact para_hit_normal_nonpos hh

/-- A reported hit parameter never exceeds the query interval's upper
bound. -/
theorem any_hit_t_le_max {h : AnyHittable} {ray : Ray} {I : Interval} {rec : HitRecord}
    (hh : h.hit ray I = some rec) : (rec.t : EReal) ≤ I.max := by
  cases h with
  | sphere s => exact le_of_lt (sphere_hit_surrounds hh).2
  | paralellogram p => exact (para_hit_contains hh).2

/-- A reported hit parameter is never below the query interval's lower
bound. -/
theorem any_hit_min_le {h : AnyHittable} {ray : Ray} {I : Interval} {rec : HitRecord}
    (hh : h.hit ray I = some rec) : I.min ≤ (rec.t : EReal) := by
  cases h with
  | sphere s => exact le_of_lt (sphere_hit_surrounds hh).1
  | paralellogram p => exact (para_hit_contains hh).1

/-- Any record produced by the `Renderables::hit` loop either was the
incoming best record, or was reported by one of the listed primitives when
queried with the shrunk interval `(I.min, m)` for some `m ≤ I.max`. -/
theorem hitLoop_source {ray : Ray} {I : Interval} (l : List AnyHittable) :
    ∀ (best : Option HitRecord) (closest : EReal) (rec : HitRecord),
      closest ≤ I.max →
      Renderables.hitLoop ray I l best closest = some rec →
      best = some rec ∨ ∃ h ∈ l, ∃ m : EReal, m ≤ I.max ∧
        h.hit ray (Interval.new I.min m) = some rec := by
  induction l with
  | nil =>
    intro best closest rec _ hloop
    exact Or.inl hloop
  | cons hittable rest ih =>
    intro best closest rec hm hloop
    rw [Renderables.hitLoop] at hloop
    rcases hcur : hittable.hit ray (Interval.new I.min closest) with _ | current
    · rw [hcur] at hloop
      rcases ih best closest rec hm hloop with hbest | ⟨h, hmem, m, hmle, hh⟩
      · exact Or.inl hbest
      · exact Or.inr ⟨h, List.mem_cons_of_mem _ hmem, m, hmle, hh⟩
    · rw [hcur] at hloop
      have hcmax : (current.t : EReal) ≤ I.max := le_trans (any_hit_t_le_max hcur) hm
      cases best with
      | none =>
        dsimp only at hloop
        rcases ih (some current) (current.t : EReal) rec hcmax hloop with hbest | ⟨h, hmem, m, hmle, hh⟩
        · exact Or.inr ⟨hittable, List.mem_cons_self _ _, closest, hm, hcur.trans hbest⟩
        · exact Or.inr ⟨h, List.mem_cons_of_mem _ hmem, m, hmle, hh⟩
      | some b =>
        dsimp only at hloop
        by_cases hlt : current.t < b.t
        · rw [if_pos hlt] at hloop
          rcases ih (some current) (current.t : EReal) rec hcmax hloop with hbest | ⟨h, hmem, m, hmle, hh⟩
          · exact Or.inr ⟨hittable, List.mem_cons_self _ _, closest, hm, hcur.trans hbest⟩
          · exact Or.inr ⟨h, List.mem_cons_of_mem _ hmem, m, hmle, hh⟩
        · rw [if_neg hlt] at hloop
          rcases ih (some b) closest rec hm hloop with hbest | ⟨h, hmem, m, hmle, hh⟩
          · exact Or.inl hbest
          · exact Or.inr ⟨h, List.mem_cons_of_mem _ hmem, m, hmle, hh⟩

/-- A concrete unit sphere at the origin. -/
def sphereT : Sphere := ⟨⟨0, 0, 0⟩, 1, matW⟩

/-- A concrete ray tangent to `sphereT`: it grazes the sphere at `(1,0,0)`. -/
def rayT : Ray := ⟨⟨1, -2, 0⟩, ⟨0, 1, 0⟩⟩

/-- The record of the tangential hit: `t = 2`, zero discriminant, and the
geometric normal is perpendicular to the ray, so `set_face_normal` flips it
(`front_face = false`) yet the dot product with the direction stays `0`. -/
def recT : HitRecord := ⟨⟨1, 0, 0⟩, ⟨-1, 0, 0⟩, 2, False, matW⟩

theorem sphereT_hit : sphereT.hit rayT intervalW = some recT := by
  unfold Sphere.hit sphereT rayT intervalW
  dsimp only
  norm_num [Vec3.dot, Vec3.sub, Vec3.divs, Interval.surrounds, Interval.new,
    Sphere.record_at, Sphere.get_outward_normal, HitRecord.set_face_normal,
    Ray.at, Vec3.smul, Vec3.add, Vec3.neg, recT, matW, HitRecord.mk.injEq, eq_iff_iff]

/-- The concrete one-sphere scene used by several witnesses. -/
def renderablesW : Renderables := ⟨[.sphere sphereW]⟩

theorem renderablesW_hit : renderablesW.hit rayW intervalW = some recW := by
  unfold Renderables.hit renderablesW
  rw [Renderables.hitLoop]
  have : AnyHittable.hit (.sphere sphereW) rayW (Interval.new intervalW.min intervalW.max)
      = some recW := sphereW_hit
  rw [this]
  rfl

/-- C7 (amended): every record returned by a primitive hit test or by the
scene aggregate has a stored normal whose dot product with the incoming ray
direction is nonpositive (`set_face_normal` guarantees `≤ 0`; the strict
inequality of the claim fails exactly in the tangential case where the dot
product is zero). -/
theorem hit_normal_opposes_ray_spec :
    (∀ (h : AnyHittable) (ray : Ray) (I : Interval) (rec : HitRecord),
        h.hit ray I = some rec → rec.normal.dot ray.direction ≤ 0)
    ∧ (∀ (rs : Renderables) (ray : Ray) (I : Interval) (rec : HitRecord),
        rs.hit ray I = some rec → rec.normal.dot ray.direction ≤ 0) := by
  constructor
  · intro h ray I rec hh
    exact any_hit_normal_nonpos hh
  · intro rs ray I rec hh
    rcases hitLoop_source rs.hittable_renderables none I.max rec le_rfl hh with hbest | ⟨h, _, m, _, hhit⟩
    · exact absurd hbest (by simp)
    · exact any_hit_normal_nonpos hhit

/-- C7 counterexample: a tangential sphere hit whose stored normal is exactly
perpendicular to the ray: the dot product is `0`, not negative. -/
theorem hit_normal_opposes_ray_counterexample :
    sphereT.hit rayT intervalW = some recT
    ∧ recT.normal.dot rayT.direction = 0
    ∧ ¬ recT.normal.dot rayT.direction < 0 := by
  refine ⟨sphereT_hit, ?_, ?_⟩ <;>
    norm_num [recT, rayT, Vec3.dot]

/-- C7 witness: the amended theorem applied to the concrete sphere hit and to
the one-sphere scene. -/
theorem hit_normal_opposes_ray_spec_witness :
    recW.normal.dot rayW.direction ≤ 0 ∧ recW.normal.dot rayW.direction ≤ 0 :=
  ⟨hit_normal_opposes_ray_spec.1 (.sphere sphereW) rayW intervalW recW sphereW_hit,
   hit_normal_opposes_ray_spec.2 renderablesW rayW intervalW recW renderablesW_hit⟩

/-- A concrete explicit-generator state (constant stream of `1/2`). -/
def rngW : Rng := ⟨fun _ => 1/2⟩

/-- A concrete thread-local-generator state drawing `0.02`. -/
def globA : Rng := ⟨fun _ => 1/50⟩

/-- A concrete thread-local-generator state drawing `0.5`. -/
def globB : Rng := ⟨fun _ => 1/2⟩

/-- C5: `Dielectric::scatter` always returns white attenuation, and under
total internal reflection (`refraction_ratio * sin_theta > 1`) the scattered
direction is the reflection of the normalized incoming direction about the
hit normal — for every hit record and every random draw. -/
theorem dielectric_scatter_spec (m : Dielectric) (ray : Ray) (rec : HitRecord)
    (rng glob rng1 glob1 : Rng) (out : MaterialScatterOutput)
    (hs : m.scatter ray rec rng glob = (some out, rng1, glob1)) :
    out.attenuation = RGBColor.white
    ∧ ((if rec.front_face then 1 / m.index_of_refraction else m.index_of_refraction) *
        Real.sqrt (1 - -(min ((ray.direction.normalize).dot rec.normal) 1) *
          -(min ((ray.direction.normalize).dot rec.normal) 1)) > 1 →
        out.scattered_ray.direction = reflect_vec3 ray.direction.normalize rec.normal) := by
  have hfst := congrArg Prod.fst hs
  unfold Dielectric.scatter at hfst
  dsimp only at hfst
  cases Option.some_injective _ hfst
  constructor
  · rfl
  · intro htir
    dsimp only
    rw [if_pos (Or.inl htir)]

/-- The dielectric used in the total-internal-reflection witness. -/
def dielectricT : Dielectric := ⟨2⟩

/-- A grazing ray for the total-internal-reflection witness. -/
def rayD5 : Ray := ⟨⟨0, 0, 0⟩, ⟨3, 4, 0⟩⟩

/-- A back-face hit record (`front_face = False`), so the refraction ratio is
the full index `2`. -/
def recD5 : HitRecord := ⟨⟨0, 0, 0⟩, ⟨0, -1, 0⟩, 1, False, .dielectric dielectricT⟩

/-- The scatter output in the TIR witness: the ray reflects. -/
def outD5 : MaterialScatterOutput :=
  ⟨⟨recD5.point, reflect_vec3 rayD5.direction.normalize recD5.normal⟩, RGBColor.new 1 1 1⟩

theorem rayD5_normalize : rayD5.direction.normalize = ⟨3/5, 4/5, 0⟩ := by
  have h5 : Real.sqrt (25 : ℝ) = 5 := by
    rw [show (25 : ℝ) = 5 ^ 2 by norm_num, Real.sqrt_sq (by norm_num)]
  simp [rayD5, Vec3.normalize, Vec3.length]
  norm_num [h5]

theorem dielectricT_scatter :
    dielectricT.scatter rayD5 recD5 rngW globB
      = (some outD5, rngW, (globB.next).2) := by
  unfold Dielectric.scatter
  dsimp only
  rw [if_pos]
  · rfl
  · left
    show (if recD5.front_face then 1 / dielectricT.index_of_refraction
        else dielectricT.index_of_refraction) * Real.sqrt _ > 1
    rw [if_neg (by simp [recD5])]
    rw [rayD5_normalize]
    have hdot : (Vec3.dot ⟨3/5, 4/5, 0⟩ recD5.normal) = -(4/5) := by
      norm_num [Vec3.dot, recD5]
    rw [hdot]
    have h925 : Real.sqrt (1 - -min (-(4/5) : ℝ) 1 * -min (-(4/5) : ℝ) 1) = 3/5 := by
      rw [min_eq_left (by norm_num)]
      rw [show (1 : ℝ) - - -(4/5) * - -(4/5) = (3/5) ^ 2 by norm_num,
        Real.sqrt_sq (by norm_num)]
    rw [h925]
    norm_num [dielectricT]

/-- C5 witness: the theorem applied to a concrete total-internal-reflection
configuration (back-face hit of a dielectric with index 2 by a grazing
ray). -/
theorem dielectric_scatter_spec_witness :
    outD5.attenuation = RGBColor.white
    ∧ outD5.scattered_ray.direction = reflect_vec3 rayD5.direction.normalize recD5.normal := by
  have h := dielectric_scatter_spec dielectricT rayD5 recD5 rngW globB rngW
    (globB.next).2 outD5 dielectricT_scatter
  refine ⟨h.1, h.2 ?_⟩
  rw [if_neg (by simp [recD5]), rayD5_normalize]
  have hdot : (Vec3.dot ⟨3/5, 4/5, 0⟩ recD5.normal) = -(4/5) := by
    norm_num [Vec3.dot, recD5]
  rw [hdot]
  have h925 : Real.sqrt (1 - -min (-(4/5) : ℝ) 1 * -min (-(4/5) : ℝ) 1) = 3/5 := by
    rw [min_eq_left (by norm_num)]
    rw [show (1 : ℝ) - - -(4/5) * - -(4/5) = (3/5) ^ 2 by norm_num,
      Real.sqrt_sq (by norm_num)]
  rw [h925]
  norm_num [dielectricT]

/-- C6: `Metal::scatter` returns `None` exactly when the scattered direction
`reflect(normalize(incoming), normal) + roughness * random_unit_vector` has
nonpositive dot product with the hit normal; otherwise it returns that
direction from the hit point with attenuation equal to the albedo. -/
theorem metal_scatter_spec (m : Metal) (ray : Ray) (rec : HitRecord) (rng glob : Rng) :
    ((m.scatter ray rec rng glob).1 = none ↔
      (reflect_vec3 ray.direction.normalize rec.normal
        + Vec3.smul m.roughness (random_vec3_on_unit_sphere rng).1).dot rec.normal ≤ 0)
    ∧ (∀ out, (m.scatter ray rec rng glob).1 = some out →
        out.scattered_ray = ⟨rec.point,
          reflect_vec3 ray.direction.normalize rec.normal
            + Vec3.smul m.roughness (random_vec3_on_unit_sphere rng).1⟩
        ∧ out.attenuation = m.albedo) := by
  unfold Metal.scatter
  dsimp only
  split_ifs with h
  · refine ⟨iff_of_false (by simp) (not_le.mpr h), ?_⟩
    intro out hout
    cases Option.some_injective _ hout
    exact ⟨rfl, rfl⟩
  · refine ⟨iff_of_true rfl (not_lt.mp h), ?_⟩
    intro out hout
    exact absurd hout (by simp)

/-- The metal used in the C6 witness: roughness `0`, so the random
perturbation is scaled away. -/
def metalW : Metal := ⟨RGBColor.new 1 0 0, 0⟩

/-- A head-on ray for the metal witness. -/
def rayM : Ray := ⟨⟨0, 0, 0⟩, ⟨0, 0, -1⟩⟩

/-- A front-face hit record for the metal witness. -/
def recM : HitRecord := ⟨⟨0, 0, 0⟩, ⟨0, 0, 1⟩, 1, True, .metal metalW⟩

/-- The metal scatter output in the witness: the mirror reflection. -/
def outM : MaterialScatterOutput :=
  ⟨⟨recM.point, reflect_vec3 rayM.direction.normalize recM.normal
      + Vec3.smul metalW.roughness (random_vec3_on_unit_sphere rngW).1⟩,
   metalW.albedo⟩

theorem rayM_normalize : rayM.direction.normalize = ⟨0, 0, -1⟩ := by
  simp [rayM, Vec3.normalize, Vec3.length]

theorem metalW_reflected :
    reflect_vec3 rayM.direction.normalize recM.normal
      + Vec3.smul metalW.roughness (random_vec3_on_unit_sphere rngW).1 = ⟨0, 0, 1⟩ := by
  rw [rayM_normalize]
  show reflect_vec3 _ _ + Vec3.smul (0 : ℝ) _ = _
  rw [Vec3.smul_zero_left]
  norm_num [reflect_vec3, recM, Vec3.dot, Vec3.smul]

theorem metalW_scatter :
    (metalW.scatter rayM recM rngW globA).1 = some outM := by
  unfold Metal.scatter
  dsimp only
  rw [if_pos]
  · rfl
  · rw [metalW_reflected]
    norm_num [Vec3.dot, recM]

/-- C6 witness: the theorem applied to the concrete roughness-0 metal hit,
whose reflected direction `(0,0,1)` has positive dot with the normal. -/
theorem metal_scatter_spec_witness :
    outM.scattered_ray = ⟨recM.point,
      reflect_vec3 rayM.direction.normalize recM.normal
        + Vec3.smul metalW.roughness (random_vec3_on_unit_sphere rngW).1⟩
    ∧ outM.attenuation = metalW.albedo :=
  (metal_scatter_spec metalW rayM recM rngW globA).2 outM metalW_scatter

/-- C4 (amended): the scatter functions of the Lambertian and metal
materials depend only on the explicitly passed generator — both the scatter
output and the advanced explicit generator state are unchanged when the
implicit thread-local stream is replaced — whereas `Dielectric::scatter`
consumes the implicit `rand::random()` stream (see the counterexample), so
per-ray colour is deterministic only given *both* generators. -/
theorem scatter_global_independence_spec :
    ∀ (m : AnyMaterial) (ray : Ray) (rec : HitRecord) (rng glob glob2 : Rng),
      (∀ d : Dielectric, m ≠ .dielectric d) →
      (m.scatter ray rec rng glob).1 = (m.scatter ray rec rng glob2).1
      ∧ (m.scatter ray rec rng glob).2.1 = (m.scatter ray rec rng glob2).2.1 := by
  intro m ray rec rng glob glob2 hnd
  cases m with
  | dielectric d => exact absurd rfl (hnd d)
  | lambertarian l => exact ⟨rfl, rfl⟩
  | metal mm =>
    unfold AnyMaterial.scatter Metal.scatter
    dsimp only
    split_ifs with h <;> exact ⟨rfl, rfl⟩

/-- The dielectric used in the C4 counterexample. -/
def dielectricC : Dielectric := ⟨3/2⟩

/-- A head-on ray for the C4 counterexample. -/
def rayD4 : Ray := ⟨⟨0, 0, 1⟩, ⟨0, 0, -1⟩⟩

/-- A front-face hit record for the C4 counterexample. -/
def recD4 : HitRecord := ⟨⟨0, 0, 0⟩, ⟨0, 0, 1⟩, 1, True, .dielectric dielectricC⟩

theorem rayD4_normalize : rayD4.direction.normalize = ⟨0, 0, -1⟩ := by
  simp [rayD4, Vec3.normalize, Vec3.length]

/-- C4 counterexample: with the *same* explicit generator state, two
different states of the implicit thread-local generator give different
scatter results for a dielectric (reflect at draw `0.02` versus refract at
draw `0.5`, since Schlick reflectance here is `0.04`).  So per-ray colour is
not a function of the explicitly passed generator state alone. -/
theorem scatter_global_independence_counterexample :
    ((AnyMaterial.dielectric dielectricC).scatter rayD4 recD4 rngW globA).1
      ≠ ((AnyMaterial.dielectric dielectricC).scatter rayD4 recD4 rngW globB).1 := by
  unfold AnyMaterial.scatter Dielectric.scatter
  dsimp only
  rw [rayD4_normalize]
  have hdot : (Vec3.dot ⟨0, 0, -1⟩ recD4.normal) = -1 := by
    norm_num [Vec3.dot, recD4]
  rw [hdot]
  have hcos : -(min (-1 : ℝ) 1) = 1 := by norm_num
  rw [hcos]
  have hite : (if recD4.front_face then 1 / dielectricC.index_of_refraction
      else dielectricC.index_of_refraction) = 1 / dielectricC.index_of_refraction :=
    if_pos (show recD4.front_face from trivial)
  rw [hite]
  have hsin : Real.sqrt (1 - (1 : ℝ) * 1) = 0 := by norm_num
  rw [hsin]
  have hcr : ¬ ((1 / dielectricC.index_of_refraction) * (0 : ℝ) > 1) := by
    norm_num
  have hrefl : Dielectric.reflectance 1 (1 / dielectricC.index_of_refraction) = 1/25 := by
    unfold Dielectric.reflectance dielectricC
    norm_num
  rw [hrefl]
  have hA : ((1 : ℝ)/25 > (globA.next).1) := by norm_num [globA, Rng.next]
  have hB : ¬ ((1 : ℝ)/25 > (globB.next).1) := by norm_num [globB, Rng.next]
  rw [if_pos (Or.inr hA), if_neg (by push_neg; exact ⟨by norm_num [dielectricC], not_lt.mp hB⟩)]
  simp only [Option.some.injEq, ne_eq]
  intro heq
  have hdir := congrArg (fun o => o.scattered_ray.direction.z) heq
  dsimp at hdir
  rw [reflect_vec3, refract_vec3] at hdir
  norm_num [Vec3.dot, Vec3.smul, recD4, dielectricC] at hdir

/-- C4 witness: the amended theorem applied to a concrete Lambertian
material and two different thread-local streams. -/
theorem scatter_global_independence_spec_witness :
    ((AnyMaterial.lambertarian ⟨RGBColor.new 1 0 0⟩).scatter rayW recW rngW globA).1
      = ((AnyMaterial.lambertarian ⟨RGBColor.new 1 0 0⟩).scatter rayW recW rngW globB).1 :=
  (scatter_global_independence_spec (.lambertarian ⟨RGBColor.new 1 0 0⟩) rayW recW rngW
    globA globB (fun _ h => AnyMaterial.noConfusion h)).1

/-- C1: the recursive estimator `ray_color` satisfies the claimed equations:
at depth 0 it returns black; otherwise it queries the scene for the nearest
hit in `(0.001, +∞)`; on an absorbed scatter it returns black; on a
successful scatter it returns the attenuation times the recursive colour of
the scattered ray at `depth - 1`; and on a miss it returns the background
applied to the ray. -/
theorem ray_color_spec (scene_data : SceneData) (ray : Ray) (depth : ℕ) (rng glob : Rng) :
    (ray_color scene_data ray 0 rng glob).1 = RGBColor.black
    ∧ (scene_data.renderables.hit ray (Interval.new ((0.001 : ℝ) : EReal) ⊤) = none →
        ray_color scene_data ray (depth + 1) rng glob = (scene_data.background ray, rng, glob))
    ∧ (∀ rec rng1 glob1,
        scene_data.renderables.hit ray (Interval.new ((0.001 : ℝ) : EReal) ⊤) = some rec →
        rec.material.scatter ray rec rng glob = (none, rng1, glob1) →
        (ray_color scene_data ray (depth + 1) rng glob).1 = RGBColor.black)
    ∧ (∀ rec out rng1 glob1,
        scene_data.renderables.hit ray (Interval.new ((0.001 : ℝ) : EReal) ⊤) = some rec →
        rec.material.scatter ray rec rng glob = (some out, rng1, glob1) →
        (ray_color scene_data ray (depth + 1) rng glob).1
          = out.attenuation * (ray_color scene_data out.scattered_ray depth rng1 glob1).1) := by
  refine ⟨rfl, ?_, ?_, ?_⟩
  · intro hmiss
    rw [ray_color, hmiss]
  · intro rec rng1 glob1 hhit hsc
    rw [ray_color, hhit]
    dsimp only
    rw [hsc]
    rfl
  · intro rec out rng1 glob1 hhit hsc
    rw [ray_color, hhit]
    dsimp only
    rw [hsc]

/-- An empty scene with a constant background. -/
def sceneE : SceneData := ⟨⟨[]⟩, fun _ => RGBColor.new 0 1 0⟩

/-- The one-sphere scene with a constant background. -/
def sceneW : SceneData := ⟨renderablesW, fun _ => RGBColor.new 0 1 0⟩

/-- The Lambertian scatter output at the concrete sphere hit (left
unevaluated: direction is the normal plus the sampled unit vector). -/
def outL : MaterialScatterOutput :=
  ⟨⟨recW.point, recW.normal + (random_vec3_on_unit_sphere rngW).1⟩, RGBColor.new 1 0 0⟩

/-- The explicit generator state after the Lambertian sampling. -/
def rngL : Rng := (random_vec3_on_unit_sphere rngW).2

theorem matW_scatter :
    recW.material.scatter rayW recW rngW globA = (some outL, rngL, globA) := rfl

/-- C1 witness: the theorem applied to an empty scene (miss branch gives the
background) and to the one-sphere scene (scatter branch gives attenuation
times the recursive colour). -/
theorem ray_color_spec_witness :
    ray_color sceneE rayW 1 rngW globA = (sceneE.background rayW, rngW, globA)
    ∧ (ray_color sceneW rayW 1 rngW globA).1
        = outL.attenuation * (ray_color sceneW outL.scattered_ray 0 rngL globA).1 :=
  ⟨(ray_color_spec sceneE rayW 0 rngW globA).2.1 rfl,
   (ray_color_spec sceneW rayW 0 rngW globA).2.2.2 recW outL rngL globA
     renderablesW_hit matW_scatter⟩

theorem Vec3.dot_self_nonneg (a : Vec3) : 0 ≤ a.dot a := by
  simp only [Vec3.dot]
  nlinarith [sq_nonneg a.x, sq_nonneg a.y, sq_nonneg a.z]

/-- The two quadratic roots tried by `Sphere::hit` are ordered: the
`-half_b - √disc` root never exceeds the `-half_b + √disc` root (the leading
coefficient `a = dir·dir` is a sum of squares, and in the `a = 0` corner case
both quotients are the junk value `0`). -/
theorem sphere_roots_ordered (dir : Vec3) (hb sd : ℝ) (hsd : 0 ≤ sd) :
    (-hb - sd) / dir.dot dir ≤ (-hb + sd) / dir.dot dir := by
  rcases eq_or_lt_of_le (Vec3.dot_self_nonneg dir) with ha | ha
  · rw [← ha, div_zero, div_zero]
  · exact (div_le_div_iff_of_pos_right ha).mpr (by linarith)

/-- L1 for spheres: if the shrunk interval `(I.min, m)` yields no hit but the
full interval yields one, the full hit's parameter is at least `m`. -/
theorem sphere_hit_shrink_none {s : Sphere} {ray : Ray} {I : Interval} {m : EReal}
    {rec' : HitRecord}
    (hnone : s.hit ray (Interval.new I.min m) = none)
    (hfull : s.hit ray I = some rec') : m ≤ (rec'.t : EReal) := by
  unfold Sphere.hit at hnone hfull
  dsimp only at hnone hfull
  split_ifs at hfull with h1 h2 h3
  · cases Option.some_injective _ hfull
    split_ifs at hnone with g2 g3
    simp only [Interval.surrounds, Interval.new, not_and, not_lt] at g2
    exact g2 h2.1
  · cases Option.some_injective _ hfull
    split_ifs at hnone with g2 g3
    simp only [Interval.surrounds, Interval.new, not_and, not_lt] at g3
    exact g3 h3.1

/-- L1 for parallelograms. -/
theorem para_hit_shrink_none {p : Paralellogram} {ray : Ray} {I : Interval} {m : EReal}
    {rec' : HitRecord}
    (hnone : p.hit ray (Interval.new I.min m) = none)
    (hfull : p.hit ray I = some rec') : m ≤ (rec'.t : EReal) := by
  unfold Paralellogram.hit at hnone hfull
  dsimp only at hnone hfull
  split_ifs at hfull with h1 h2 h3
  cases Option.some_injective _ hfull
  split_ifs at hnone with g1
  simp only [Interval.contains, Interval.new, not_and, not_le] at g1
  exact le_of_lt (g1 h2.1)

/-- L1 for any primitive. -/
theorem any_hit_shrink_none {h : AnyHittable} {ray : Ray} {I : Interval} {m : EReal}
    {rec' : HitRecord}
    (hnone : h.hit ray (Interval.new I.min m) = none)
    (hfull : h.hit ray I = some rec') : m ≤ (rec'.t : EReal) := by
  cases h with
  | sphere s => exact sphere_hit_shrink_none hnone hfull
  | paralellogram p => exact para_hit_shrink_none hnone hfull

theorem Interval.surrounds_iff (I : Interval) (x : ℝ) :
    I.surrounds x ↔ I.min < (x : EReal) ∧ (x : EReal) < I.max := Iff.rfl

/-- L2 for spheres: a hit found in the shrunk interval `(I.min, m)` with
`m ≤ I.max` has parameter no larger than any hit the full interval
reports. -/
theorem sphere_hit_shrink_some {s : Sphere} {ray : Ray} {I : Interval} {m : EReal}
    {cur rec' : HitRecord}
    (hm : m ≤ I.max)
    (hcur : s.hit ray (Interval.new I.min m) = some cur)
    (hfull : s.hit ray I = some rec') : cur.t ≤ rec'.t := by
  unfold Sphere.hit at hcur hfull
  dsimp only at hcur hfull
  split_ifs at hcur with g1 g2 g3
  · cases Option.some_injective _ hcur
    simp only [Interval.surrounds, Interval.new] at g2
    obtain ⟨g2a, g2b⟩ := g2
    split_ifs at hfull with h2 h3
    · cases Option.some_injective _ hfull
      exact le_refl _
    · exact absurd ((Interval.surrounds_iff _ _).mpr ⟨g2a, lt_of_lt_of_le g2b hm⟩) h2
  · cases Option.some_injective _ hcur
    simp only [Interval.surrounds, Interval.new] at g3
    obtain ⟨g3a, g3b⟩ := g3
    split_ifs at hfull with h2 h3
    · cases Option.some_injective _ hfull
      simp only [Interval.surrounds, Interval.new, not_and, not_lt] at g2
      have hro := (Interval.surrounds_iff _ _).mp h2
      have hml := g2 hro.1
      exact le_of_lt (EReal.coe_lt_coe_iff.mp (lt_of_lt_of_le g3b hml))
    · cases Option.some_injective _ hfull
      exact le_refl _

/-- L2 for parallelograms: the reported parameter is the same plane-solution
`t` for both intervals. -/
theorem para_hit_shrink_some {p : Paralellogram} {ray : Ray} {I : Interval} {m : EReal}
    {cur rec' : HitRecord}
    (hcur : p.hit ray (Interval.new I.min m) = some cur)
    (hfull : p.hit ray I = some rec') : cur.t ≤ rec'.t := by
  unfold Paralellogram.hit at hcur hfull
  dsimp only at hcur hfull
  split_ifs at hcur hfull with a b c d
  cases Option.some_injective _ hcur
  cases Option.some_injective _ hfull
  exact le_refl _

/-- L2 for any primitive. -/
theorem any_hit_shrink_some {h : AnyHittable} {ray : Ray} {I : Interval} {m : EReal}
    {cur rec' : HitRecord}
    (hm : m ≤ I.max)
    (hcur : h.hit ray (Interval.new I.min m) = some cur)
    (hfull : h.hit ray I = some rec') : cur.t ≤ rec'.t := by
  cases h with
  | sphere s => exact sphere_hit_shrink_some hm hcur hfull
  | paralellogram p => exact para_hit_shrink_some hcur hfull

theorem Interval.new_min_max (I : Interval) : Interval.new I.min I.max = I := rfl

/-- The `Renderables::hit` loop returns `none` exactly when it started with
no best record and every listed primitive misses the *original* interval
(as long as `closest` equals the original upper bound whenever no best
record is held, which is the loop invariant). -/
theorem hitLoop_none_iff {ray : Ray} {I : Interval} (l : List AnyHittable) :
    ∀ (best : Option HitRecord) (closest : EReal),
      (best = none → closest = I.max) →
      (Renderables.hitLoop ray I l best closest = none ↔
        best = none ∧ ∀ h ∈ l, h.hit ray I = none) := by
  induction l with
  | nil =>
    intro best closest _
    simp [Renderables.hitLoop]
  | cons hittable rest ih =>
    intro best closest hinv
    rw [Renderables.hitLoop]
    rcases hcur : hittable.hit ray (Interval.new I.min closest) with _ | current
    · dsimp only
      rw [ih best closest hinv]
      constructor
      · rintro ⟨hb, hrest⟩
        refine ⟨hb, ?_⟩
        intro h hmem
        rcases List.mem_cons.mp hmem with rfl | hmem
        · rw [hinv hb] at hcur
          exact hcur
        · exact hrest h hmem
      · rintro ⟨hb, hall⟩
        exact ⟨hb, fun h hmem => hall h (List.mem_cons_of_mem _ hmem)⟩
    · dsimp only
      cases best with
      | none =>
        dsimp only
        rw [ih (some current) (current.t : EReal) (fun h => by cases h)]
        constructor
        · rintro ⟨h, -⟩
          cases h
        · rintro ⟨-, hall⟩
          rw [hinv rfl, Interval.new_min_max] at hcur
          exact absurd (hall hittable (List.mem_cons_self _ _)) (by simp [hcur])
      | some b =>
        dsimp only
        by_cases hlt : current.t < b.t
        · rw [if_pos hlt, ih (some current) (current.t : EReal) (fun h => by cases h)]
          constructor
          · rintro ⟨h, -⟩
            cases h
          · rintro ⟨h, -⟩
            cases h
        · rw [if_neg hlt, ih (some b) closest (fun h => by cases h)]
          constructor
          · rintro ⟨h, -⟩
            cases h
          · rintro ⟨h, -⟩
            cases h

/-- Minimality of the `Renderables::hit` loop: a returned record's parameter
is no larger than that of any hit a listed primitive reports on the original
interval, nor than the incoming best record's parameter — given the loop
invariants relating `closest`, the best record and the interval. -/
theorem hitLoop_min {ray : Ray} {I : Interval} (l : List AnyHittable) :
    ∀ (best : Option HitRecord) (closest : EReal) (rec : HitRecord),
      closest ≤ I.max →
      (best = none → closest = I.max) →
      (∀ b, best = some b → (b.t : EReal) ≤ closest) →
      Renderables.hitLoop ray I l best closest = some rec →
      (∀ h ∈ l, ∀ rec', h.hit ray I = some rec' → rec.t ≤ rec'.t)
      ∧ (∀ b, best = some b → rec.t ≤ b.t) := by
  induction l with
  | nil =>
    intro best closest rec _ _ _ hloop
    refine ⟨by simp, ?_⟩
    intro b hb
    rw [hb] at hloop
    cases Option.some_injective _ hloop
    exact le_refl _
  | cons hittable rest ih =>
    intro best closest rec hle hinv2 hinv3 hloop
    rw [Renderables.hitLoop] at hloop
    rcases hcur : hittable.hit ray (Interval.new I.min closest) with _ | current
    all_goals rw [hcur] at hloop
    · dsimp only at hloop
      obtain ⟨ih1, ih2⟩ := ih best closest rec hle hinv2 hinv3 hloop
      refine ⟨?_, ih2⟩
      intro h hmem rec' hh
      rcases List.mem_cons.mp hmem with rfl | hmem
      · cases best with
        | none =>
          rw [hinv2 rfl, Interval.new_min_max] at hcur
          exact absurd hh (by simp [hcur])
        | some b =>
          have h1 : closest ≤ (rec'.t : EReal) := any_hit_shrink_none hcur hh
          have h2 : (b.t : EReal) ≤ closest := hinv3 b rfl
          have h3 : rec.t ≤ b.t := ih2 b rfl
          have : (rec.t : EReal) ≤ (rec'.t : EReal) :=
            le_trans (EReal.coe_le_coe_iff.mpr h3) (le_trans h2 h1)
          exact EReal.coe_le_coe_iff.mp this
      · exact ih1 h hmem rec' hh
    · dsimp only at hloop
      have hcle : (current.t : EReal) ≤ I.max := le_trans (any_hit_t_le_max hcur) hle
      cases best with
      | none =>
        dsimp only at hloop
        obtain ⟨ih1, ih2⟩ := ih (some current) (current.t : EReal) rec hcle
          (fun h => by cases h)
          (fun b hb => by cases Option.some_injective _ hb; exact le_refl _) hloop
        refine ⟨?_, fun b hb => by cases hb⟩
        intro h hmem rec' hh
        rcases List.mem_cons.mp hmem with rfl | hmem
        · rw [hinv2 rfl, Interval.new_min_max] at hcur
          rw [hh] at hcur
          cases Option.some_injective _ hcur
          exact ih2 _ rfl
        · exact ih1 h hmem rec' hh
      | some b =>
        dsimp only at hloop
        by_cases hlt : current.t < b.t
        · rw [if_pos hlt] at hloop
          obtain ⟨ih1, ih2⟩ := ih (some current) (current.t : EReal) rec hcle
            (fun h => by cases h)
            (fun c hc => by cases Option.some_injective _ hc; exact le_refl _) hloop
          refine ⟨?_, ?_⟩
          · intro h hmem rec' hh
            rcases List.mem_cons.mp hmem with rfl | hmem
            · exact le_trans (ih2 current rfl) (any_hit_shrink_some hle hcur hh)
            · exact ih1 h hmem rec' hh
          · intro c hc
            cases Option.some_injective _ hc
            exact le_trans (ih2 current rfl) (le_of_lt hlt)
        · rw [if_neg hlt] at hloop
          obtain ⟨ih1, ih2⟩ := ih (some b) closest rec hle
            (fun h => by cases h) hinv3 hloop
          refine ⟨?_, ih2⟩
          intro h hmem rec' hh
          rcases List.mem_cons.mp hmem with rfl | hmem
          · exact le_trans (le_trans (ih2 b rfl) (not_lt.mp hlt))
              (any_hit_shrink_some hle hcur hh)
          · exact ih1 h hmem rec' hh

/-- C3: `Renderables::hit` misses exactly when every primitive misses the
original interval; and when it returns a record, that record was reported by
one of the primitives under the shrinking-upper-bound querying scheme
(interval `(I.min, m)` for some `m ≤ I.max`) and its parameter is minimal
among all hits any primitive reports on the original interval. -/
theorem renderables_hit_spec (rs : Renderables) (ray : Ray) (I : Interval) :
    (rs.hit ray I = none ↔ ∀ h ∈ rs.hittable_renderables, h.hit ray I = none)
    ∧ (∀ rec, rs.hit ray I = some rec →
        (∃ h ∈ rs.hittable_renderables, ∃ m : EReal, m ≤ I.max ∧
            h.hit ray (Interval.new I.min m) = some rec)
        ∧ ∀ h ∈ rs.hittable_renderables, ∀ rec', h.hit ray I = some rec' →
            rec.t ≤ rec'.t) := by
  constructor
  · unfold Renderables.hit
    rw [hitLoop_none_iff rs.hittable_renderables none I.max (fun _ => rfl)]
    simp
  · intro rec hh
    constructor
    · rcases hitLoop_source rs.hittable_renderables none I.max rec le_rfl hh with hbest | hsrc
      · exact absurd hbest (by simp)
      · exact hsrc
    · exact (hitLoop_min rs.hittable_renderables none I.max rec le_rfl (fun _ => rfl)
        (fun b hb => by cases hb) hh).1

/-- C3 witness: existence/minimality at the concrete one-sphere scene, and
the miss characterization at the empty scene. -/
theorem renderables_hit_spec_witness :
    (∃ h ∈ renderablesW.hittable_renderables, ∃ m : EReal, m ≤ intervalW.max ∧
        h.hit rayW (Interval.new intervalW.min m) = some recW)
    ∧ recW.t ≤ recW.t
    ∧ Renderables.hit ⟨[]⟩ rayW intervalW = none := by
  obtain ⟨hsrc, hmin⟩ := (renderables_hit_spec renderablesW rayW intervalW).2 recW renderablesW_hit
  refine ⟨hsrc, ?_, ?_⟩
  · exact hmin (.sphere sphereW) (List.mem_cons_self _ _) recW sphereW_hit
  · exact (renderables_hit_spec ⟨[]⟩ rayW intervalW).1.mpr (by simp)

/-- IEEE-special-value model of `f32`: exact real arithmetic on finite
values, plus the special values `inf`, `ninf` and `nan` with IEEE-754
propagation rules.  Rounding is not modelled (it is irrelevant to the claims
about NaN/∞ behaviour); the zero is unsigned, standing for IEEE `+0`, which
is the zero that actually arises in the code paths analysed here
(`norm = sqrt(sum of squares)`). -/
inductive FP
  | fin (x : ℝ)
  | inf
  | ninf
  | nan

namespace FP

def isNaN : FP → Bool
  | nan => true
  | _ => false

def isInfinite : FP → Bool
  | inf => true
  | ninf => true
  | _ => false

def isFinite : FP → Bool
  | fin _ => true
  | _ => false

def add : FP → FP → FP
  | nan, _ => nan
  | _, nan => nan
  | fin x, fin y => fin (x + y)
  | fin _, inf => inf
  | inf, fin _ => inf
  | inf, inf => inf
  | fin _, ninf => ninf
  | ninf, fin _ => ninf
  | ninf, ninf => ninf
  | inf, ninf => nan
  | ninf, inf => nan

def mul : FP → FP → FP
  | nan, _ => nan
  | _, nan => nan
  | fin x, fin y => fin (x * y)
  | fin x, inf => if 0 < x then inf else if x < 0 then ninf else nan
  | inf, fin x => if 0 < x then inf else if x < 0 then ninf else nan
  | fin x, ninf => if 0 < x then ninf else if x < 0 then inf else nan
  | ninf, fin x => if 0 < x then ninf else if x < 0 then inf else nan
  | inf, inf => inf
  | inf, ninf => ninf
  | ninf, inf => ninf
  | ninf, ninf => inf

/-- Division; a zero denominator stands for IEEE `+0`. -/
def div : FP → FP → FP
  | nan, _ => nan
  | _, nan => nan
  | fin x, fin y =>
    if y = 0 then (if x = 0 then nan else if 0 < x then inf else ninf)
    else fin (x / y)
  | fin _, inf => fin 0
  | fin _, ninf => fin 0
  | inf, fin y => if y < 0 then ninf else inf
  | ninf, fin y => if y < 0 then inf else ninf
  | inf, inf => nan
  | inf, ninf => nan
  | ninf, inf => nan
  | ninf, ninf => nan

def sqrt : FP → FP
  | nan => nan
  | inf => inf
  | ninf => nan
  | fin x => if x < 0 then nan else fin (Real.sqrt x)

def ln : FP → FP
  | nan => nan
  | inf => inf
  | ninf => nan
  | fin x => if x < 0 then nan else if x = 0 then ninf else fin (Real.log x)

def sin : FP → FP
  | fin x => fin (Real.sin x)
  | _ => nan

/-- IEEE `<`: every comparison involving NaN is false. -/
def lt : FP → FP → Prop
  | nan, _ => False
  | _, nan => False
  | fin x, fin y => x < y
  | fin _, inf => True
  | ninf, fin _ => True
  | ninf, inf => True
  | inf, _ => False
  | ninf, ninf => False
  | fin _, ninf => False

end FP

/-- `math::random_normal_number` in the float model: Box-Muller, faithfully
tracking that `u1 = 0` gives `ln 0 = -∞`, hence `sqrt(+∞) = +∞`, and that a
zero `sin` then yields `∞ * 0 = NaN`. -/
def random_normal_numberFP (g : Rng) : FP × Rng :=
  let p1 := g.next
  let p2 := p1.2.next
  let sqrt_part := FP.sqrt (FP.mul (FP.fin (-2)) (FP.ln (FP.fin p1.1)))
  let cos_part := FP.sin (FP.mul (FP.mul (FP.fin 2) (FP.fin Real.pi)) (FP.fin p2.1))
  (FP.mul sqrt_part cos_part, p2.2)

/-- Vector of float-model components. -/
structure Vec3FP where
  x : FP
  y : FP
  z : FP

/-- The four normal samples drawn by `random_vec3_on_unit_sphere`. -/
def unit_sphere_samplesFP (g : Rng) : (FP × FP × FP × FP) × Rng :=
  let px := random_normal_numberFP g
  let py := random_normal_numberFP px.2
  let pz := random_normal_numberFP py.2
  let pw := random_normal_numberFP pz.2
  ((px.1, py.1, pz.1, pw.1), pw.2)

/-- The norm `sqrt(x*x + y*y + z*z + w*w)` of the 4D sample (left-associated
sum, as in the source). -/
def unit_sphere_normFP (g : Rng) : FP :=
  let s := (unit_sphere_samplesFP g).1
  FP.sqrt (FP.add (FP.add (FP.add (FP.mul s.1 s.1) (FP.mul s.2.1 s.2.1))
    (FP.mul s.2.2.1 s.2.2.1)) (FP.mul s.2.2.2 s.2.2.2))

/-- `math::random_vec3_on_unit_sphere` in the float model: divide the first
three components by the norm, then zero the result only when the norm
`is_infinite()` — exactly the source's guard, which does *not* cover a zero
norm. -/
def random_vec3_on_unit_sphereFP (g : Rng) : Vec3FP × Rng :=
  let s := (unit_sphere_samplesFP g).1
  let norm := unit_sphere_normFP g
  let norm_x := FP.div s.1 norm
  let norm_y := FP.div s.2.1 norm
  let norm_z := FP.div s.2.2.1 norm
  if norm.isInfinite then (⟨FP.fin 0, FP.fin 0, FP.fin 0⟩, (unit_sphere_samplesFP g).2)
  else (⟨norm_x, norm_y, norm_z⟩, (unit_sphere_samplesFP g).2)

/-- `color::RGBColor` in the float model. -/
structure RGBColorFP where
  r : FP
  g : FP
  b : FP

/-- Rust `f32::clamp(self, min, max)`: `min` if `self < min`, else `max` if
`self > max`, else `self`; NaN propagates (both comparisons are false). -/
def FP.clampTo (x lo hi : FP) : FP :=
  if FP.lt x lo then lo else if FP.lt hi x then hi else x

/-- `RGBColor::clamp` in the float model: clamp each channel to `[0,1]`. -/
def RGBColorFP.clamp (c : RGBColorFP) : RGBColorFP :=
  ⟨FP.clampTo c.r (FP.fin 0) (FP.fin 1),
   FP.clampTo c.g (FP.fin 0) (FP.fin 1),
   FP.clampTo c.b (FP.fin 0) (FP.fin 1)⟩

/-- "The value is a real number in `[0,1]`" in the float model. -/
def inUnitFP (f : FP) : Prop := ∃ x : ℝ, f = FP.fin x ∧ 0 ≤ x ∧ x ≤ 1

theorem FP.clampTo_unit_idem (x : FP) :
    FP.clampTo (FP.clampTo x (FP.fin 0) (FP.fin 1)) (FP.fin 0) (FP.fin 1)
      = FP.clampTo x (FP.fin 0) (FP.fin 1) := by
  cases x with
  | fin v =>
    simp only [FP.clampTo]
    split_ifs <;> simp_all [FP.lt] <;> linarith
  | inf => simp [FP.clampTo, FP.lt]
  | ninf => simp [FP.clampTo, FP.lt]
  | nan => simp [FP.clampTo, FP.lt]

theorem FP.clampTo_unit_mem (x : FP) (hx : x.isNaN = false) :
    inUnitFP (FP.clampTo x (FP.fin 0) (FP.fin 1)) := by
  cases x with
  | nan => simp [FP.isNaN] at hx
  | fin v =>
    simp only [FP.clampTo, FP.lt]
    split_ifs with h1 h2
    · exact ⟨0, rfl, le_refl 0, by norm_num⟩
    · exact ⟨1, rfl, by norm_num, le_refl 1⟩
    · exact ⟨v, rfl, by linarith, by linarith⟩
  | inf =>
    simp only [FP.clampTo, FP.lt, if_false, if_true]
    exact ⟨1, by norm_num, by norm_num, le_refl 1⟩
  | ninf =>
    simp only [FP.clampTo, FP.lt, if_false, if_true]
    exact ⟨0, by norm_num, le_refl 0, by norm_num⟩

/-- C9 (amended): `RGBColor::clamp` is idempotent on every colour of the
float model (a NaN channel stays NaN both times), but the range guarantee
holds only for non-NaN channels: a NaN channel is passed through unchanged
by `f32::clamp` and is not in `[0,1]`. -/
theorem rgb_clamp_spec (c : RGBColorFP) :
    c.clamp.clamp = c.clamp
    ∧ (c.r.isNaN = false → c.g.isNaN = false → c.b.isNaN = false →
        inUnitFP c.clamp.r ∧ inUnitFP c.clamp.g ∧ inUnitFP c.clamp.b) := by
  constructor
  · show RGBColorFP.mk _ _ _ = RGBColorFP.mk _ _ _
    simp only [RGBColorFP.clamp, FP.clampTo_unit_idem]
  · intro hr hg hb
    exact ⟨FP.clampTo_unit_mem c.r hr, FP.clampTo_unit_mem c.g hg,
      FP.clampTo_unit_mem c.b hb⟩

/-- C9 counterexample: a colour with a NaN red channel: `clamp` leaves the
NaN in place, and NaN is not a real value in `[0,1]`. -/
theorem rgb_clamp_counterexample :
    (RGBColorFP.clamp ⟨FP.nan, FP.fin 0, FP.fin 0⟩).r = FP.nan
    ∧ ¬ inUnitFP (RGBColorFP.clamp ⟨FP.nan, FP.fin 0, FP.fin 0⟩).r := by
  constructor
  · simp [RGBColorFP.clamp, FP.clampTo, FP.lt]
  · simp [RGBColorFP.clamp, FP.clampTo, FP.lt, inUnitFP]

/-- C9 witness: the amended theorem applied to a concrete colour with
channels above, below and inside `[0,1]`. -/
theorem rgb_clamp_spec_witness :
    inUnitFP (RGBColorFP.clamp ⟨FP.fin 2, FP.fin (-1), FP.fin (1/2)⟩).r
    ∧ inUnitFP (RGBColorFP.clamp ⟨FP.fin 2, FP.fin (-1), FP.fin (1/2)⟩).g
    ∧ inUnitFP (RGBColorFP.clamp ⟨FP.fin 2, FP.fin (-1), FP.fin (1/2)⟩).b :=
  (rgb_clamp_spec ⟨FP.fin 2, FP.fin (-1), FP.fin (1/2)⟩).2 rfl rfl rfl

theorem rnnFP_snd (g : Rng) :
    (random_normal_numberFP g).2 = ⟨fun n => g.stream (n + 2)⟩ := rfl

/-- When the first uniform draw lies in `(0,1)`, the Box-Muller sample is the
finite value `sqrt(-2 ln u1) * sin(2 π u2)`. -/
theorem rnnFP_fin (g : Rng) (h1 : 0 < g.stream 0) (h2 : g.stream 0 < 1) :
    (random_normal_numberFP g).1
      = FP.fin (Real.sqrt (-2 * Real.log (g.stream 0))
          * Real.sin (2 * Real.pi * g.stream 1)) := by
  have hlog : Real.log (g.stream 0) < 0 := Real.log_neg h1 h2
  have hnn : ¬ ((-2 : ℝ) * Real.log (g.stream 0) < 0) := by nlinarith
  unfold random_normal_numberFP Rng.next
  dsimp only
  rw [show FP.ln (FP.fin (g.stream 0)) = FP.fin (Real.log (g.stream 0)) by
    simp [FP.ln, not_lt.mpr h1.le, h1.ne']]
  rw [show FP.mul (FP.fin (-2)) (FP.fin (Real.log (g.stream 0)))
      = FP.fin (-2 * Real.log (g.stream 0)) from rfl]
  rw [show FP.sqrt (FP.fin (-2 * Real.log (g.stream 0)))
      = FP.fin (Real.sqrt (-2 * Real.log (g.stream 0))) by simp [FP.sqrt, hnn, hlog.le]]
  rw [show FP.mul (FP.mul (FP.fin 2) (FP.fin Real.pi)) (FP.fin (g.stream 1))
      = FP.fin (2 * Real.pi * g.stream 1) from rfl]
  rfl

/-- The generator state that samples `(u1, u2) = (1/2, 0)` for each of the
four normal draws: all four Box-Muller samples are exactly `0`, the norm is
`0`, and the unguarded `0/0` produces NaN. -/
def rngC8 : Rng := ⟨fun n => if n % 2 = 0 then 1/2 else 0⟩

theorem rngC8_samples :
    (unit_sphere_samplesFP rngC8).1 = (FP.fin 0, FP.fin 0, FP.fin 0, FP.fin 0) := by
  unfold unit_sphere_samplesFP
  dsimp only
  rw [rnnFP_snd, rnnFP_snd, rnnFP_snd]
  rw [rnnFP_fin, rnnFP_fin, rnnFP_fin, rnnFP_fin] <;>
    norm_num [rngC8, Real.sin_zero]

theorem rngC8_norm : unit_sphere_normFP rngC8 = FP.fin 0 := by
  unfold unit_sphere_normFP
  rw [rngC8_samples]
  dsimp only
  norm_num [FP.mul, FP.add, FP.sqrt]

/-- C8 counterexample: on the degenerate all-zero 4D sample the norm is `0`,
the `is_infinite` guard does not fire, and `0/0` makes every component NaN —
refuting "no NaN for every generator state". -/
theorem random_unit_sphere_counterexample :
    (random_vec3_on_unit_sphereFP rngC8).1 = ⟨FP.nan, FP.nan, FP.nan⟩
    ∧ (random_vec3_on_unit_sphereFP rngC8).1.x.isNaN = true := by
  have hmain : (random_vec3_on_unit_sphereFP rngC8).1 = ⟨FP.nan, FP.nan, FP.nan⟩ := by
    unfold random_vec3_on_unit_sphereFP
    rw [rngC8_samples, rngC8_norm]
    dsimp only
    norm_num [FP.div, FP.isInfinite]
  exact ⟨hmain, by rw [hmain]; rfl⟩

theorem FP.sqrt_eq_fin {a : FP} {n : ℝ} (h : FP.sqrt a = FP.fin n) :
    ∃ s : ℝ, a = FP.fin s := by
  cases a with
  | fin s => exact ⟨s, rfl⟩
  | inf => exact absurd h (by simp [FP.sqrt])
  | ninf => exact absurd h (by simp [FP.sqrt])
  | nan => exact absurd h (by simp [FP.sqrt])

theorem FP.add_eq_fin {a b : FP} {s : ℝ} (h : FP.add a b = FP.fin s) :
    (∃ x : ℝ, a = FP.fin x) ∧ (∃ y : ℝ, b = FP.fin y) := by
  cases a <;> cases b <;> simp [FP.add] at h ⊢

theorem FP.mul_self_eq_fin {a : FP} {r : ℝ} (h : FP.mul a a = FP.fin r) :
    ∃ x : ℝ, a = FP.fin x := by
  cases a <;> simp [FP.mul] at h ⊢

/-- C8 (amended): the sampler only guards an *infinite* norm (then it
returns the zero vector); when the norm is finite and nonzero every returned
component is finite — but a zero norm is not guarded (see the counterexample,
where `0/0` yields NaN). -/
theorem random_unit_sphere_guard_spec (g : Rng) :
    ((unit_sphere_normFP g).isInfinite = true →
      (random_vec3_on_unit_sphereFP g).1 = ⟨FP.fin 0, FP.fin 0, FP.fin 0⟩)
    ∧ (∀ n : ℝ, unit_sphere_normFP g = FP.fin n → n ≠ 0 →
        (random_vec3_on_unit_sphereFP g).1.x.isFinite = true
        ∧ (random_vec3_on_unit_sphereFP g).1.y.isFinite = true
        ∧ (random_vec3_on_unit_sphereFP g).1.z.isFinite = true) := by
  constructor
  · intro hinf
    unfold random_vec3_on_unit_sphereFP
    rw [if_pos hinf]
  · intro n hn hne
    obtain ⟨s, hs⟩ := FP.sqrt_eq_fin (a := FP.add (FP.add (FP.add
        (FP.mul (unit_sphere_samplesFP g).1.1 (unit_sphere_samplesFP g).1.1)
        (FP.mul (unit_sphere_samplesFP g).1.2.1 (unit_sphere_samplesFP g).1.2.1))
        (FP.mul (unit_sphere_samplesFP g).1.2.2.1 (unit_sphere_samplesFP g).1.2.2.1))
        (FP.mul (unit_sphere_samplesFP g).1.2.2.2 (unit_sphere_samplesFP g).1.2.2.2)) hn
    obtain ⟨⟨s3, hs3⟩, -⟩ := FP.add_eq_fin hs
    obtain ⟨⟨s2, hs2⟩, ⟨vz, hvz⟩⟩ := FP.add_eq_fin hs3
    obtain ⟨⟨vx2, hvx2⟩, ⟨vy2, hvy2⟩⟩ := FP.add_eq_fin hs2
    obtain ⟨vx, hvx⟩ := FP.mul_self_eq_fin hvx2
    obtain ⟨vy, hvy⟩ := FP.mul_self_eq_fin hvy2
    obtain ⟨vzz, hvzz⟩ := FP.mul_self_eq_fin hvz
    have hninf : (unit_sphere_normFP g).isInfinite = false := by
      rw [hn]; rfl
    unfold random_vec3_on_unit_sphereFP
    rw [if_neg (by rw [hninf]; simp)]
    dsimp only
    rw [hn, hvx, hvy, hvzz]
    simp [FP.div, hne, FP.isFinite]

/-- The generator state for the C8 witness: the first normal draw is
`sqrt(2 ln 2) * sin(π/2) = sqrt(2 ln 2)` and the other three draws are `0`,
so the norm is the finite nonzero value `sqrt(2 ln 2)`. -/
def rngC8w : Rng := ⟨fun n => if n = 1 then 1/4 else if n % 2 = 0 then 1/2 else 0⟩

theorem rngC8w_samples :
    (unit_sphere_samplesFP rngC8w).1
      = (FP.fin (Real.sqrt (2 * Real.log 2)), FP.fin 0, FP.fin 0, FP.fin 0) := by
  unfold unit_sphere_samplesFP
  dsimp only
  rw [rnnFP_snd, rnnFP_snd, rnnFP_snd]
  rw [rnnFP_fin, rnnFP_fin, rnnFP_fin, rnnFP_fin]
  · dsimp only
    simp only [Prod.mk.injEq]
    refine ⟨?_, ?_, ?_, ?_⟩
    · have harg : (2 : ℝ) * Real.pi * rngC8w.stream 1 = Real.pi / 2 := by
        norm_num [rngC8w]
        ring
      have hlog : (-2 : ℝ) * Real.log (rngC8w.stream 0) = 2 * Real.log 2 := by
        norm_num [rngC8w]
        rw [one_div, Real.log_inv]
        ring
      rw [harg, hlog, Real.sin_pi_div_two, mul_one]
    · norm_num [rngC8w, Real.sin_zero]
    · norm_num [rngC8w, Real.sin_zero]
    · norm_num [rngC8w, Real.sin_zero]
  all_goals norm_num [rngC8w]

theorem rngC8w_norm :
    unit_sphere_normFP rngC8w = FP.fin (Real.sqrt (2 * Real.log 2)) := by
  have hlog2 : (0 : ℝ) < Real.log 2 := Real.log_pos one_lt_two
  have hsq : Real.sqrt (2 * Real.log 2) * Real.sqrt (2 * Real.log 2)
      = 2 * Real.log 2 := Real.mul_self_sqrt (by positivity)
  unfold unit_sphere_normFP
  rw [rngC8w_samples]
  dsimp only
  simp only [FP.mul, FP.add]
  rw [show Real.sqrt (2 * Real.log 2) * Real.sqrt (2 * Real.log 2) + 0 * 0 + 0 * 0 + 0 * 0
      = 2 * Real.log 2 by rw [hsq]; ring]
  simp [FP.sqrt, not_lt.mpr (le_of_lt (by positivity : (0:ℝ) < 2 * Real.log 2))]

/-- C8 witness: the amended theorem applied to a generator whose norm is the
finite nonzero value `sqrt(2 ln 2)`: all three returned components are
finite. -/
theorem random_unit_sphere_guard_spec_witness :
    (random_vec3_on_unit_sphereFP rngC8w).1.x.isFinite = true
    ∧ (random_vec3_on_unit_sphereFP rngC8w).1.y.isFinite = true
    ∧ (random_vec3_on_unit_sphereFP rngC8w).1.z.isFinite = true := by
  have hlog2 : (0 : ℝ) < Real.log 2 := Real.log_pos one_lt_two
  have hne : Real.sqrt (2 * Real.log 2) ≠ 0 :=
    ne_of_gt (Real.sqrt_pos.mpr (by positivity))
  exact (random_unit_sphere_guard_spec rngC8w).2 (Real.sqrt (2 * Real.log 2))
    rngC8w_norm hne

end Raybow
